import Mathlib

/-!
Verification development for the LZip gzip inflater (src/src/main.c).

The C source is shallowly embedded: machine integers become `Nat` with
explicit truncation (`% 256`, `% 2^32`) where the C type could overflow,
the `FILE*` byte source becomes a `List Nat` of remaining bytes, and the
block-local output buffer becomes a list of written cells, where a cell
holds `none` when the C program would read memory it never wrote
(out-of-bounds or uninitialized reads yield indeterminate bytes).
-/

set_option maxHeartbeats 4000000
set_option maxRecDepth 100000

namespace LZip

/-! ### Bit stream (main.c: `bit_stream`, `next_bit`, `read_bits`, `read_bits_and_invert`)

`source` is the unread suffix of the compressed input, `buf` the current
byte, `mask` the current bit mask (a power of two; in C an `unsigned char`
shifted left each bit, wrapping to 0 after 128), `eof` the `feof` flag of
the `FILE*`, which becomes set once an `fread` fails.  A failed `fread`
in `next_bit` only prints a message; `buf` keeps its stale value. -/

structure BitStream where
  source : List Nat
  buf : Nat
  mask : Nat
  eof : Bool
deriving DecidableEq

/-- Model of `next_bit` (main.c lines 147-163): extract `(buf & mask) ? 1 : 0`,
shift the mask left (as an `unsigned char`, so 128 wraps to 0), and on wrap
reset the mask to 1 and fetch the next byte; a failed fetch sets the stream's
eof flag and leaves `buf` stale. -/
def next_bit (s : BitStream) : Nat × BitStream :=
  let bit : Nat := if s.buf &&& s.mask ≠ 0 then 1 else 0
  let m := (s.mask <<< 1) % 256
  if m = 0 then
    match s.source with
    | [] => (bit, ⟨[], s.buf, 1, true⟩)
    | b :: rest => (bit, ⟨rest, b, 1, s.eof⟩)
  else
    (bit, ⟨s.source, s.buf, m, s.eof⟩)

/-- Accumulator loop of `read_bits` (main.c lines 166-173):
`bits_value = (bits_value << 1) | next_bit(stream)`. -/
def read_bits_aux : BitStream → Nat → Nat → Nat × BitStream
  | s, 0, acc => (acc, s)
  | s, n+1, acc =>
    let r := next_bit s
    read_bits_aux r.2 n ((acc <<< 1) ||| r.1)

/-- Model of `read_bits` (main.c lines 166-173): n bits, first bit read ends up
most significant. -/
def read_bits (s : BitStream) (numof_bits : Nat) : Nat × BitStream :=
  read_bits_aux s numof_bits 0

/-- Accumulator loop of `read_bits_and_invert` (main.c lines 175-182):
`bits_value |= (next_bit(stream) << i)` for `i = 0 .. n-1`. -/
def read_bits_and_invert_aux : BitStream → Nat → Nat → Nat → Nat × BitStream
  | s, 0, _, acc => (acc, s)
  | s, n+1, i, acc =>
    let r := next_bit s
    read_bits_and_invert_aux r.2 n (i+1) (acc ||| (r.1 <<< i))

/-- Model of `read_bits_and_invert` (main.c lines 175-182): n bits, first bit
read ends up least significant (the spec's `read_bits_lsb_first`). -/
def read_bits_and_invert (s : BitStream) (numof_bits : Nat) : Nat × BitStream :=
  read_bits_and_invert_aux s numof_bits 0 0

/-- The next `n` bits of the stream in consumption order, together with the
stream state afterwards.  This is the reference against which both assembly
routines are stated. -/
def next_bits : BitStream → Nat → List Nat × BitStream
  | s, 0 => ([], s)
  | s, n+1 =>
    let r := next_bit s
    let rest := next_bits r.2 n
    (r.1 :: rest.1, rest.2)

/-- Value of a bit list read LSB-first: head is bit 0. -/
def lsb_value : List Nat → Nat
  | [] => 0
  | b :: bs => b + 2 * lsb_value bs

/-- Value of a bit list read MSB-first: head is the highest bit. -/
def msb_value : List Nat → Nat
  | [] => 0
  | b :: bs => b * 2 ^ bs.length + msb_value bs

theorem next_bit_fst (s : BitStream) :
    (next_bit s).1 = if s.buf &&& s.mask ≠ 0 then 1 else 0 := by
  unfold next_bit
  dsimp only
  split
  · split <;> rfl
  · rfl

theorem next_bit_le (s : BitStream) : (next_bit s).1 ≤ 1 := by
  rw [next_bit_fst]
  split <;> simp

theorem next_bits_length (s : BitStream) (n : Nat) : (next_bits s n).1.length = n := by
  induction n generalizing s with
  | zero => rfl
  | succ n ih => simp [next_bits, ih]

theorem or_two_pow_of_lt : ∀ (i a : Nat), a < 2^i → a ||| 2^i = a + 2^i := by
  intro i
  induction i with
  | zero => intro a ha; interval_cases a; rfl
  | succ i ih =>
    intro a ha
    have hmod : a % 2 = (a.testBit 0).toNat := by
      cases h : a.testBit 0 <;> rw [Nat.testBit_zero] at h <;> simp at h ⊢ <;> omega
    have hdecomp : a = Nat.bit (a.testBit 0) (a / 2) := by
      rw [Nat.bit_val]; omega
    have hpow : (2:Nat)^(i+1) = Nat.bit false (2^i) := by
      rw [Nat.bit_val]; simp; ring
    have h2 : (2:Nat)^(i+1) = 2 * 2^i := by ring
    have hq : a / 2 < 2^i := by omega
    conv_lhs => rw [hdecomp, hpow]
    rw [Nat.lor_bit, ih _ hq, Bool.or_false, Nat.bit_val]
    omega

theorem or_bit_low (a b : Nat) (hb : b ≤ 1) : (2*a) ||| b = 2*a + b := by
  have hdecomp : 2*a = Nat.bit false a := by rw [Nat.bit_val]; simp
  have hb' : b = Nat.bit (b = 1) 0 := by
    rw [Nat.bit_val]
    rcases Nat.le_one_iff_eq_zero_or_eq_one.mp hb with h | h <;> simp [h]
  conv_lhs => rw [hdecomp, hb']
  rw [Nat.lor_bit, Nat.bit_val]
  simp
  rcases Nat.le_one_iff_eq_zero_or_eq_one.mp hb with h | h <;> simp [h]

theorem read_bits_and_invert_aux_spec :
    ∀ (n : Nat) (s : BitStream) (i acc : Nat), acc < 2^i →
    read_bits_and_invert_aux s n i acc
      = (acc + 2^i * lsb_value (next_bits s n).1, (next_bits s n).2) := by
  intro n
  induction n with
  | zero => intro s i acc _; simp [read_bits_and_invert_aux, next_bits, lsb_value]
  | succ n ih =>
    intro s i acc hacc
    have hb := next_bit_le s
    have hor : acc ||| ((next_bit s).1 <<< i) = acc + (next_bit s).1 * 2^i := by
      rcases Nat.le_one_iff_eq_zero_or_eq_one.mp hb with h | h
      · simp [h, Nat.zero_shiftLeft]
      · rw [h, Nat.shiftLeft_eq, one_mul, or_two_pow_of_lt i acc hacc]
    have hacc' : acc + (next_bit s).1 * 2^i < 2^(i+1) := by
      have : (2:Nat)^(i+1) = 2^i + 2^i := by ring
      rcases Nat.le_one_iff_eq_zero_or_eq_one.mp hb with h | h <;> rw [h] <;> omega
    simp only [read_bits_and_invert_aux, next_bits]
    rw [hor, ih _ _ _ hacc']
    simp only [lsb_value, Prod.mk.injEq]
    exact ⟨by ring, trivial⟩

theorem read_bits_and_invert_spec (s : BitStream) (n : Nat) :
    read_bits_and_invert s n = (lsb_value (next_bits s n).1, (next_bits s n).2) := by
  unfold read_bits_and_invert
  rw [read_bits_and_invert_aux_spec n s 0 0 (by norm_num)]
  simp

theorem read_bits_aux_spec :
    ∀ (n : Nat) (s : BitStream) (acc : Nat),
    read_bits_aux s n acc
      = (acc * 2^n + msb_value (next_bits s n).1, (next_bits s n).2) := by
  intro n
  induction n with
  | zero => intro s acc; simp [read_bits_aux, next_bits, msb_value]
  | succ n ih =>
    intro s acc
    have hb := next_bit_le s
    have hor : (acc <<< 1) ||| (next_bit s).1 = 2*acc + (next_bit s).1 := by
      rw [Nat.shiftLeft_eq, pow_one, mul_comm]
      exact or_bit_low acc _ hb
    simp only [read_bits_aux, next_bits]
    rw [hor, ih]
    simp only [msb_value, next_bits_length, Prod.mk.injEq]
    exact ⟨by ring, trivial⟩

theorem read_bits_spec (s : BitStream) (n : Nat) :
    read_bits s n = (msb_value (next_bits s n).1, (next_bits s n).2) := by
  unfold read_bits
  rw [read_bits_aux_spec]
  simp

theorem lsb_value_sum (l : List Nat) :
    lsb_value l = ∑ i ∈ Finset.range l.length, l.getD i 0 * 2^i := by
  induction l with
  | nil => simp [lsb_value]
  | cons b bs ih =>
    rw [lsb_value, ih, List.length_cons, Finset.sum_range_succ']
    simp only [List.getD_cons_succ, List.getD_cons_zero, pow_zero, mul_one]
    rw [Finset.mul_sum,
      Finset.sum_congr rfl (fun x _ => by ring :
        ∀ x ∈ Finset.range bs.length, 2 * (bs.getD x 0 * 2^x) = bs.getD x 0 * 2^(x+1))]
    exact Nat.add_comm _ _

theorem msb_value_sum (l : List Nat) :
    msb_value l = ∑ i ∈ Finset.range l.length, l.getD i 0 * 2^(l.length - 1 - i) := by
  induction l with
  | nil => simp [msb_value]
  | cons b bs ih =>
    rw [msb_value, ih, List.length_cons, Finset.sum_range_succ']
    simp only [List.getD_cons_succ, List.getD_cons_zero]
    rw [Finset.sum_congr rfl (fun x _ => by rw [Nat.add_sub_cancel, Nat.sub_sub, Nat.add_comm 1 x] :
      ∀ x ∈ Finset.range bs.length,
        bs.getD x 0 * 2^(bs.length - 1 - x) = bs.getD x 0 * 2^(bs.length + 1 - 1 - (x+1)))]
    rw [Nat.add_sub_cancel]
    exact Nat.add_comm _ _

/-- C5: for every `n ≤ 16` and stream state, `read_bits_and_invert`
(the spec's `read_bits_lsb_first`) over the bits `b0, …, b_{n-1}` in
consumption order returns `Σ b_i · 2^i`: the first bit read becomes bit 0
of the result. -/
theorem read_bits_and_invert_lsb_first (s : BitStream) (n : Nat) (h : n ≤ 16) :
    (read_bits_and_invert s n).1
      = ∑ i ∈ Finset.range n, (next_bits s n).1.getD i 0 * 2^i := by
  rw [read_bits_and_invert_spec, lsb_value_sum, next_bits_length]

/-- C5 witness: evaluated on a concrete stream (byte 0xC3 buffered, then 0xA5)
with n = 8. -/
theorem read_bits_and_invert_lsb_first_witness :
    (8 ≤ 16) ∧
    (read_bits_and_invert ⟨[165], 195, 1, false⟩ 8).1
      = ∑ i ∈ Finset.range 8, (next_bits ⟨[165], 195, 1, false⟩ 8).1.getD i 0 * 2^i :=
  ⟨by norm_num, read_bits_and_invert_lsb_first ⟨[165], 195, 1, false⟩ 8 (by norm_num)⟩

/-! ### Huffman tree construction (main.c: `build_huffman_tree`, lines 46-122)

The C function receives `numof_ranges` and a `huffman_range*`; here the
list is exactly the `numof_ranges`-element prefix the C code accesses.
`end` is a Lean keyword, so the field is called `end_`. -/

structure HuffmanRange where
  end_ : Nat
  bit_length : Nat
deriving DecidableEq

structure tree_node where
  code : Nat
  bit_length : Nat
deriving DecidableEq

inductive huffman_node where
  | mk (code : Int) (lhs rhs : Option huffman_node)

def huffman_node.code : huffman_node → Int
  | .mk c _ _ => c

def huffman_node.lhs : huffman_node → Option huffman_node
  | .mk _ l _ => l

def huffman_node.rhs : huffman_node → Option huffman_node
  | .mk _ _ r => r

/-- Walk of main.c lines 94-116: descend along the low `bits` bits of `code`
from the most significant (`code & (1 << (bits-1))`), allocating `-1` nodes
on the way, and store symbol `sym` at the end.  (The C `assert` that the
final node still holds `-1` aborts on a collision; every tree evaluated in
this file is collision-free.) -/
def insert_code : huffman_node → Nat → Nat → Nat → huffman_node
  | .mk c l r, _, 0, sym => .mk (Int.ofNat sym) l r
  | .mk c l r, code, bits+1, sym =>
    if code &&& (1 <<< bits) ≠ 0 then
      .mk c l (some (insert_code (r.getD (.mk (-1) none none)) code bits sym))
    else
      .mk c (some (insert_code (l.getD (.mk (-1) none none)) code bits sym)) r

/-- The per-range contributions of main.c lines 61-64:
`ranges[i].end - ((i > 0) ? (int)ranges[i-1].end : -1)` tagged with the
range's bit length.  Computed in C `int` arithmetic, hence `Int`. -/
def count_contribs : List HuffmanRange → Int → List (Nat × Int)
  | [], _ => []
  | r :: rs, prev => (r.bit_length, (r.end_ : Int) - prev) :: count_contribs rs (r.end_ : Int)

/-- Array `numof_codes_per_length[b]` of main.c lines 59-64; the array cell is a
C `unsigned`, hence the final truncation mod 2^32. -/
def numof_codes_per_length (ranges : List HuffmanRange) (b : Nat) : Nat :=
  (((count_contribs ranges (-1)).foldl
      (fun (acc : Int) (q : Nat × Int) => if q.1 = b then acc + q.2 else acc) 0) % (2^32 : Int)).toNat

def max_bit_length (ranges : List HuffmanRange) : Nat :=
  ranges.foldl (fun m r => max m r.bit_length) 0

/-- The `code` accumulator of main.c lines 68-74 after the iteration for bit
length `b`: `code = (code + numof_codes_per_length[bits - 1]) << 1`,
in 32-bit unsigned arithmetic.  Note that index 0 is NOT forced to zero:
unused symbols (bit length 0) are counted in `counts 0`. -/
def first_code (counts : Nat → Nat) : Nat → Nat
  | 0 => 0
  | b+1 => ((first_code counts b + counts b) * 2) % 2^32

/-- Table `next_code[b]` as left by main.c lines 67-74: written only for
`1 ≤ b ≤ max_bit_length` when the length has codes, otherwise the memset 0. -/
def next_code0 (ranges : List HuffmanRange) (b : Nat) : Nat :=
  if 1 ≤ b ∧ b ≤ max_bit_length ranges ∧ numof_codes_per_length ranges b ≠ 0 then
    first_code (numof_codes_per_length ranges) b
  else 0

/-- The `active_range` scan of main.c lines 78-83, one output entry per
symbol index `i`: drop the head range once `i` passes its `end`, and read
the bit length from the then-current head. -/
def range_lengths : List HuffmanRange → Nat → Nat → List Nat
  | _, _, 0 => []
  | rs, i, n+1 =>
    let rs' := match rs with
      | r :: rest => if r.end_ < i then rest else r :: rest
      | [] => []
    (match rs' with
     | r :: _ => r.bit_length
     | [] => 0) :: range_lengths rs' (i+1) n

/-- The code-assignment loop of main.c lines 79-90 given the per-symbol bit
lengths: a symbol of nonzero length `bl` receives `next_code[bl]++`
(32-bit increment); length-0 symbols keep the memset `{0, 0}`. -/
def assignL : List Nat → (Nat → Nat) → List tree_node
  | [], _ => []
  | bl :: rest, nc =>
    if bl ≠ 0 then
      ⟨nc bl, bl⟩ :: assignL rest (fun b => if b = bl then (nc bl + 1) % 2^32 else nc b)
    else
      ⟨0, 0⟩ :: assignL rest nc

/-- Value `ranges[numof_ranges - 1].end` (for an empty range list the C code reads
out of bounds; 0 here, never exercised). -/
def last_end (ranges : List HuffmanRange) : Nat :=
  (ranges.getLast?.map HuffmanRange.end_).getD 0

/-- The `tree` array of main.c after lines 77-90: per-symbol code and bit
length for symbols `0 .. ranges[numof_ranges-1].end`. -/
def assign_codes (ranges : List HuffmanRange) : List tree_node :=
  assignL (range_lengths ranges 0 (last_end ranges + 1)) (next_code0 ranges)

/-- Model of `build_huffman_tree` (main.c lines 46-122): assign codes, then
insert every nonzero-length symbol into the trie rooted at a `-1` node. -/
def build_huffman_tree (ranges : List HuffmanRange) : huffman_node :=
  ((assign_codes ranges).enum).foldl
    (fun root p =>
      if p.2.bit_length ≠ 0 then insert_code root p.2.code p.2.bit_length p.1 else root)
    (.mk (-1) none none)

/-- Model of `build_fixed_huffman_tree` (main.c lines 133-136). -/
def build_fixed_huffman_tree : huffman_node :=
  build_huffman_tree [⟨143, 8⟩, ⟨255, 9⟩, ⟨279, 7⟩, ⟨287, 8⟩]

/-- The run-length range encoding loop of main.c lines 202-208 (and again
lines 257-263 and 268-274): bump to a fresh range when the value changes,
and keep overwriting the current range's `end` with `i`. -/
def runs_aux : List Nat → Nat → List HuffmanRange → List HuffmanRange
  | [], _, acc => acc.reverse
  | x :: xs, i, [] => runs_aux xs (i+1) [⟨i, x⟩]
  | x :: xs, i, r :: acc =>
    if x = r.bit_length then runs_aux xs (i+1) (⟨i, x⟩ :: acc)
    else runs_aux xs (i+1) (⟨i, x⟩ :: r :: acc)

def runs (l : List Nat) : List HuffmanRange := runs_aux l 0 []

/-! ### Spec-side canonical codes (RFC 1951 §3.2.2, spec §4.2 build algorithm)

These definitions follow the specification's words, for comparison with
`assign_codes` above: `bl_count[0]` is initialised to 0, `code` starts at 0,
and `code = (code + bl_count[b-1]) << 1` for `b = 1 .. max_len`; symbols of
equal length receive consecutive codes in ascending symbol order. -/

def countLen (len : List Nat) (b : Nat) : Nat := (len.filter (fun x => x = b)).length

def canonical_first_code (len : List Nat) : Nat → Nat
  | 0 => 0
  | b+1 => (canonical_first_code len b + (if b = 0 then 0 else countLen len b)) * 2

/-- Number of earlier symbols with the same code length as symbol `s`. -/
def rank_in (len : List Nat) (s : Nat) : Nat :=
  ((len.take s).filter (fun x => x = len.getD s 0)).length

def canonical_code (len : List Nat) (s : Nat) : Nat :=
  canonical_first_code len (len.getD s 0) + rank_in len s

/-- Strictly ascending `end` fields, starting above `p` (the C code walks
ranges with `prev = -1` before the first). -/
def strict_asc : Int → List HuffmanRange → Bool
  | _, [] => true
  | p, r :: rs => decide (p < (r.end_ : Int)) && strict_asc (r.end_ : Int) rs

/-- The per-symbol bit-length vector denoted by a range list: each range
covers the symbols after the previous range's `end` up to its own. -/
def expand : List HuffmanRange → Int → List Nat
  | [], _ => []
  | r :: rs, prev =>
    List.replicate ((r.end_ : Int) - prev).toNat r.bit_length ++ expand rs (r.end_ : Int)

/-! ### Lemmas about the code-assignment loop -/

theorem rank_in_cons (x : Nat) (rest : List Nat) (s : Nat) :
    rank_in (x :: rest) (s+1) = (if x = rest.getD s 0 then 1 else 0) + rank_in rest s := by
  simp only [rank_in, List.getD_cons_succ, List.take_succ_cons, List.filter_cons]
  by_cases h : x = rest[s]?.getD 0
  · simp [h]
    omega
  · simp [h]

theorem assignL_getD : ∀ (l : List Nat) (nc : Nat → Nat) (s : Nat),
    s < l.length → l.getD s 0 ≠ 0 → (∀ b, nc b < 2^32) →
    (assignL l nc).getD s ⟨0,0⟩
      = ⟨(nc (l.getD s 0) + rank_in l s) % 2^32, l.getD s 0⟩ := by
  intro l
  induction l with
  | nil => intro nc s hs _ _; simp at hs
  | cons x rest ih =>
    intro nc s hs hnz hb
    cases s with
    | zero =>
      rw [List.getD_cons_zero] at hnz ⊢
      have hrank : rank_in (x :: rest) 0 = 0 := by simp [rank_in]
      rw [hrank, assignL, if_pos hnz, List.getD_cons_zero,
        Nat.add_zero, Nat.mod_eq_of_lt (hb x)]
    | succ s =>
      rw [List.getD_cons_succ] at hnz ⊢
      have hs' : s < rest.length := by simpa using hs
      rw [rank_in_cons, assignL]
      by_cases hx : x ≠ 0
      · rw [if_pos hx, List.getD_cons_succ]
        have hb' : ∀ b, (if b = x then (nc x + 1) % 2^32 else nc b) < 2^32 := by
          intro b
          split
          · exact Nat.mod_lt _ (by norm_num)
          · exact hb b
        rw [ih _ s hs' hnz hb']
        by_cases hxe : x = rest.getD s 0
        · rw [if_pos hxe, if_pos hxe.symm, ← hxe, Nat.mod_add_mod]
          congr 2
          omega
        · rw [if_neg hxe, if_neg (fun h => hxe h.symm), Nat.zero_add]
      · rw [if_neg hx, List.getD_cons_succ, ih _ s hs' hnz hb]
        have hxe : ¬ x = rest.getD s 0 := by
          intro h
          exact hnz (by omega)
        rw [if_neg hxe, Nat.zero_add]

theorem first_code_lt (counts : Nat → Nat) (b : Nat) : first_code counts b < 2^32 := by
  cases b with
  | zero => norm_num [first_code]
  | succ b => exact Nat.mod_lt _ (by norm_num)

theorem next_code0_lt (ranges : List HuffmanRange) (b : Nat) : next_code0 ranges b < 2^32 := by
  unfold next_code0
  split
  · exact first_code_lt _ _
  · norm_num

theorem first_code_canonical (len : List Nat) (counts : Nat → Nat)
    (h0 : counts 0 = countLen len 0)
    (hcnt : ∀ b, 1 ≤ b → counts b = countLen len b) :
    ∀ b, 1 ≤ b →
    first_code counts b
      = (canonical_first_code len b + countLen len 0 * 2^b) % 2^32 := by
  intro b
  induction b with
  | zero => intro h; omega
  | succ b ih =>
    intro _
    cases Nat.eq_zero_or_pos b with
    | inl hz =>
      subst hz
      rw [first_code, first_code, h0, canonical_first_code, canonical_first_code]
      norm_num
    | inr hpos =>
      rw [first_code, ih hpos, hcnt b hpos]
      have hmodeq :
          ((canonical_first_code len b + countLen len 0 * 2^b) % 2^32 + countLen len b) * 2
            ≡ ((canonical_first_code len b + countLen len 0 * 2^b) + countLen len b) * 2
              [MOD 2^32] :=
        ((Nat.mod_modEq _ _).add_right _).mul_right 2
      rw [hmodeq]
      have hG : canonical_first_code len (b+1)
          = (canonical_first_code len b + countLen len b) * 2 := by
        rw [canonical_first_code, if_neg (by omega : ¬ b = 0)]
      rw [hG]
      congr 1
      ring

/-! ### The active-range scan denotes the expanded bit-length vector -/

theorem run_scan (r : HuffmanRange) (rest : List HuffmanRange) :
    ∀ (k i m : Nat), i + k = r.end_ + 1 →
    range_lengths (r :: rest) i (k + m)
      = List.replicate k r.bit_length ++ range_lengths (r :: rest) (i + k) m := by
  intro k
  induction k with
  | zero => intro i m _; simp
  | succ k ih =>
    intro i m hik
    have hle : ¬ r.end_ < i := by omega
    have hsum : (k + 1) + m = (k + m) + 1 := by ring
    rw [hsum, range_lengths]
    simp only [if_neg hle]
    rw [ih (i+1) m (by omega)]
    rw [List.replicate_succ, List.cons_append]
    have hidx : i + 1 + k = i + (k+1) := by ring
    rw [hidx]

theorem drop_step (r : HuffmanRange) (rest : List HuffmanRange) (i n : Nat)
    (h : r.end_ < i)
    (h2 : ∀ r', rest.head? = some r' → ¬ r'.end_ < i) :
    range_lengths (r :: rest) i n = range_lengths rest i n := by
  cases n with
  | zero => rfl
  | succ n =>
    cases rest with
    | nil =>
      rw [range_lengths, range_lengths]
      simp only [if_pos h]
    | cons r' rest' =>
      have hr' := h2 r' rfl
      rw [range_lengths, range_lengths]
      simp only [if_pos h, if_neg hr']

theorem strict_asc_cons (p : Int) (r : HuffmanRange) (rs : List HuffmanRange) :
    strict_asc p (r :: rs) = true ↔ p < (r.end_ : Int) ∧ strict_asc (r.end_ : Int) rs = true := by
  simp [strict_asc]

theorem range_lengths_expand : ∀ (rs : List HuffmanRange) (p : Int) (i : Nat),
    strict_asc p rs = true → (i : Int) = p + 1 →
    range_lengths rs i (expand rs p).length = expand rs p := by
  intro rs
  induction rs with
  | nil =>
    intro p i _ _
    simp [expand, range_lengths]
  | cons r rest ih =>
    intro p i hasc hip
    rw [strict_asc_cons] at hasc
    obtain ⟨h1, h2⟩ := hasc
    have hk : (((r.end_ : Int) - p).toNat : Int) = (r.end_ : Int) - p :=
      Int.toNat_of_nonneg (by omega)
    have hik : i + ((r.end_ : Int) - p).toNat = r.end_ + 1 := by omega
    rw [expand, List.length_append, List.length_replicate,
      run_scan r rest _ i _ hik]
    congr 1
    have hdrop : ∀ r', rest.head? = some r' → ¬ r'.end_ < i + ((r.end_ : Int) - p).toNat := by
      intro r' hr'
      cases rest with
      | nil => simp at hr'
      | cons q qs =>
        rw [strict_asc_cons] at h2
        simp at hr'
        subst hr'
        omega
    rw [drop_step r rest _ _ (by omega) hdrop]
    exact ih (r.end_ : Int) _ h2 (by omega)

theorem expand_last : ∀ (rs : List HuffmanRange) (p : Int),
    strict_asc p rs = true → rs ≠ [] →
    p + ((expand rs p).length : Int) = (last_end rs : Int) := by
  intro rs
  induction rs with
  | nil => intro p _ h; exact absurd rfl h
  | cons r rest ih =>
    intro p hasc _
    rw [strict_asc_cons] at hasc
    obtain ⟨h1, h2⟩ := hasc
    have hk : (((r.end_ : Int) - p).toNat : Int) = (r.end_ : Int) - p :=
      Int.toNat_of_nonneg (by omega)
    rw [expand, List.length_append, List.length_replicate]
    cases rest with
    | nil =>
      simp [expand, last_end]
      omega
    | cons q qs =>
      have := ih (r.end_ : Int) h2 (by simp)
      have hlast : last_end (r :: q :: qs) = last_end (q :: qs) := by
        simp [last_end, List.getLast?_cons_cons]
      rw [hlast]
      push_cast at this ⊢
      omega

/-! ### The per-length counters denote occurrence counts in the vector -/

theorem countLen_append (l1 l2 : List Nat) (b : Nat) :
    countLen (l1 ++ l2) b = countLen l1 b + countLen l2 b := by
  simp [countLen, List.filter_append]

theorem countLen_replicate (k v b : Nat) :
    countLen (List.replicate k v) b = if v = b then k else 0 := by
  induction k with
  | zero => simp [countLen]
  | succ k ih =>
    rw [List.replicate_succ]
    simp only [countLen, List.filter_cons] at ih ⊢
    split
    · next h => simp only [List.length_cons, if_pos (by simpa using h)] at ih ⊢; omega
    · next h => simpa [if_neg (by simpa using h)] using ih

theorem counts_fold (b : Nat) : ∀ (rs : List HuffmanRange) (p : Int) (a : Int),
    strict_asc p rs = true →
    (count_contribs rs p).foldl
        (fun (acc : Int) (q : Nat × Int) => if q.1 = b then acc + q.2 else acc) a
      = a + (countLen (expand rs p) b : Int) := by
  intro rs
  induction rs with
  | nil => intro p a _; simp [count_contribs, expand, countLen]
  | cons r rest ih =>
    intro p a hasc
    rw [strict_asc_cons] at hasc
    obtain ⟨h1, h2⟩ := hasc
    have hk : (((r.end_ : Int) - p).toNat : Int) = (r.end_ : Int) - p :=
      Int.toNat_of_nonneg (by omega)
    rw [count_contribs, List.foldl_cons, ih _ _ h2, expand, countLen_append,
      countLen_replicate]
    push_cast
    split <;> omega

theorem numof_codes_bridge (ranges : List HuffmanRange)
    (hasc : strict_asc (-1) ranges = true)
    (hsize : (expand ranges (-1)).length < 2^32) (b : Nat) :
    numof_codes_per_length ranges b = countLen (expand ranges (-1)) b := by
  unfold numof_codes_per_length
  rw [counts_fold b ranges (-1) 0 hasc, Int.zero_add]
  have hle : countLen (expand ranges (-1)) b ≤ (expand ranges (-1)).length :=
    List.length_filter_le _ _
  rw [Int.emod_eq_of_lt (by positivity) (by exact_mod_cast (by omega : countLen (expand ranges (-1)) b < 2^32))]
  simp

/-! ### Bound on the bit length via membership -/

theorem foldl_max_init_le (rs : List HuffmanRange) :
    ∀ (a : Nat), a ≤ rs.foldl (fun m x => max m x.bit_length) a := by
  induction rs with
  | nil => intro a; simp
  | cons r rest ih =>
    intro a
    rw [List.foldl_cons]
    exact le_trans (le_max_left _ _) (ih _)

theorem mem_le_foldl_max : ∀ (rs : List HuffmanRange) (a : Nat) (r : HuffmanRange),
    r ∈ rs → r.bit_length ≤ rs.foldl (fun m x => max m x.bit_length) a := by
  intro rs
  induction rs with
  | nil => intro a r h; simp at h
  | cons q rest ih =>
    intro a r h
    rw [List.foldl_cons]
    rcases List.mem_cons.mp h with h | h
    · subst h
      exact le_trans (le_max_right _ _) (foldl_max_init_le rest _)
    · exact ih _ r h

theorem mem_bit_length_le (rs : List HuffmanRange) (r : HuffmanRange) (h : r ∈ rs) :
    r.bit_length ≤ max_bit_length rs :=
  mem_le_foldl_max rs 0 r h

theorem expand_mem_bit_length : ∀ (rs : List HuffmanRange) (p : Int) (x : Nat),
    x ∈ expand rs p → ∃ r ∈ rs, r.bit_length = x := by
  intro rs
  induction rs with
  | nil => intro p x h; simp [expand] at h
  | cons r rest ih =>
    intro p x h
    rw [expand, List.mem_append] at h
    rcases h with h | h
    · exact ⟨r, List.mem_cons_self _ _, (List.eq_of_mem_replicate h).symm⟩
    · obtain ⟨q, hq, hx⟩ := ih _ x h
      exact ⟨q, List.mem_cons_of_mem _ hq, hx⟩

theorem countLen_pos_of_mem (len : List Nat) (x : Nat) (h : x ∈ len) :
    0 < countLen len x := by
  have : x ∈ len.filter (fun y => y = x) := List.mem_filter.mpr ⟨h, by simp⟩
  have := List.length_pos_of_mem this
  simpa [countLen] using this


/-- C6 (amended): for every length vector (presented to `build_huffman_tree`
as the strictly ascending run-encoded ranges its callers construct), the
code assigned to a used symbol `s` equals the RFC 1951 §3.2.2 canonical code
plus `z * 2^len[s]` (all in 32-bit arithmetic), where `z` is the number of
zero-length (unused) symbols: the source omits RFC's `bl_count[0] = 0` reset,
so `code` for bit length 1 starts at `2*z` instead of 0.  Symbols of equal
length still receive consecutive code values in ascending symbol order
(`canonical_code` is `first code of the length + rank among that length`),
and since the shift is a multiple of `2^len[s]`, the low `len[s]` bits used
to place the symbol in the trie coincide with the canonical code. -/
theorem assign_codes_canonical_shifted
    (ranges : List HuffmanRange) (len : List Nat)
    (hasc : strict_asc (-1) ranges = true)
    (hne : ranges ≠ [])
    (hlen : expand ranges (-1) = len)
    (hsize : len.length < 2^32)
    (s : Nat) (hs : s < len.length) (hnz : len.getD s 0 ≠ 0) :
    (assign_codes ranges).getD s ⟨0,0⟩
      = ⟨(canonical_code len s + countLen len 0 * 2^(len.getD s 0)) % 2^32,
          len.getD s 0⟩ := by
  have hlast : (-1 : Int) + ((expand ranges (-1)).length : Int) = (last_end ranges : Int) :=
    expand_last ranges (-1) hasc hne
  rw [hlen] at hlast
  have hn : last_end ranges + 1 = len.length := by omega
  have hrl : range_lengths ranges 0 (last_end ranges + 1) = len := by
    have h := range_lengths_expand ranges (-1) 0 hasc (by norm_num)
    rw [hlen] at h
    rw [hn]
    exact h
  unfold assign_codes
  rw [hrl, assignL_getD len _ s hs hnz (next_code0_lt ranges)]
  have hmem : len.getD s 0 ∈ len := by
    rw [List.getD_eq_getElem len 0 hs]
    exact List.getElem_mem hs
  have hcnt : ∀ c, numof_codes_per_length ranges c = countLen len c := by
    intro c
    rw [numof_codes_bridge ranges hasc (by rw [hlen]; exact hsize) c, hlen]
  have hbmax : len.getD s 0 ≤ max_bit_length ranges := by
    obtain ⟨r, hr, hrb⟩ := expand_mem_bit_length ranges (-1) _ (by rw [hlen]; exact hmem)
    rw [← hrb]
    exact mem_bit_length_le ranges r hr
  have h1b : 1 ≤ len.getD s 0 := Nat.pos_of_ne_zero hnz
  have hcond : next_code0 ranges (len.getD s 0)
      = first_code (numof_codes_per_length ranges) (len.getD s 0) := by
    unfold next_code0
    rw [if_pos ⟨h1b, hbmax, by
      rw [hcnt]
      have := countLen_pos_of_mem len _ hmem
      omega⟩]
  rw [hcond,
    first_code_canonical len (numof_codes_per_length ranges) (hcnt 0)
      (fun c _ => hcnt c) _ h1b,
    Nat.mod_add_mod]
  unfold canonical_code
  congr 2
  ring

/-- C6 witness: the length vector `[0,1,1]` (run encoding `[⟨0,0⟩, ⟨2,1⟩]`),
symbol 1: assigned code `(canonical 0) + 1·2^1 = 2`. -/
theorem assign_codes_canonical_shifted_witness :
    (assign_codes [⟨0,0⟩, ⟨2,1⟩]).getD 1 ⟨0,0⟩
      = ⟨(canonical_code [0,1,1] 1 + countLen [0,1,1] 0 * 2^([0,1,1].getD 1 0)) % 2^32,
          [0,1,1].getD 1 0⟩ :=
  assign_codes_canonical_shifted [⟨0,0⟩, ⟨2,1⟩] [0,1,1]
    (by decide) (by decide) (by decide) (by decide) 1 (by decide) (by decide)

/-- C6 counterexample: for the length vector `[0,1,1]` the claim's canonical
code of symbol 1 is 0, but `build_huffman_tree`'s assignment gives it code 2:
the zero-length symbol 0 is counted in `bl_count[0]`, which RFC 1951 §3.2.2
zeroes. -/
theorem assign_codes_not_canonical :
    expand (runs [0,1,1]) (-1) = [0,1,1] ∧
    (assign_codes (runs [0,1,1])).getD 1 ⟨0,0⟩ = ⟨2, 1⟩ ∧
    canonical_code [0,1,1] 1 = 0 := by decide

/-! ### Length/distance engine (main.c: `inflate_huffman_codes`, lines 282-377) -/

def extra_length_addend : List Nat :=
  [11, 13, 15, 17, 19] ++ [23, 27, 31, 35, 43] ++
    [51, 59, 67, 83, 99] ++ [115, 131, 163, 195, 227]

def extra_dist_addend : List Nat :=
  [4, 6, 8, 12, 16, 24] ++ [32, 48, 64, 96, 128, 192] ++
    [256, 384, 512, 768, 1024, 1536] ++ [2048, 3072, 4096, 6144] ++
    [8192, 12288, 16384, 24576]

/-- Read a cell of the block-local output buffer: the C pointer `buf + idx`.
Negative indices lie before the array, and cells never written hold
indeterminate bytes in C; both give `none` here. -/
def bufGet (buf : List (Option Nat)) (idx : Int) : Option Nat :=
  if idx < 0 then none else buf.getD idx.toNat none

/-- The back-reference copy loop of main.c lines 363-366:
`while(length--) *(ptr++) = *(backptr++);` — one byte at a time, in
increasing position order, each read seeing all previous writes. -/
def copy_loop : List (Option Nat) → Int → Nat → List (Option Nat)
  | buf, _, 0 => buf
  | buf, start, len+1 => copy_loop (buf ++ [bufGet buf start]) (start + 1) len

/-- Pointer arithmetic `backptr = ptr - dist - 1` (main.c line 362) followed by the copy loop:
the copy source starts `dist + 1` bytes before the current write position. -/
def emit_backref (buf : List (Option Nat)) (dist : Nat) (len : Nat) : List (Option Nat) :=
  copy_loop buf ((buf.length : Int) - (dist : Int) - 1) len

/-- The length decode of main.c lines 324-335 for a literal/length symbol
above 256: below 265 the length is `code - 254`; up to 284 read
`(code - 261) / 4` extra bits LSB-first and add `extra_length_addend[code-265]`;
285 is length 258. -/
def decode_length (s : BitStream) (code : Nat) : Nat × BitStream :=
  if code < 265 then (code - 254, s)
  else if code < 285 then
    let r := read_bits_and_invert s ((code - 261) / 4)
    (r.1 + extra_length_addend.getD (code - 265) 0, r.2)
  else (258, s)

/-- The distance adjustment of main.c lines 356-360: symbols above 3 read
`(dist - 2) / 2` extra bits LSB-first and add `extra_dist_addend[dist - 4]`.
(For symbols above 29 the C reads past the 26-entry table — indeterminate;
the list default 0 stands in, reached only on malformed streams.) -/
def decode_distance (s : BitStream) (dist : Nat) : Nat × BitStream :=
  if dist > 3 then
    let r := read_bits_and_invert s ((dist - 2) / 2)
    (r.1 + extra_dist_addend.getD (dist - 4) 0, r.2)
  else (dist, s)

/-- The distance-tree walk of main.c lines 346-352
(`while(node->code == -1)` descending right on 1, left on 0);
`none` models the NULL-child dereference. -/
def walk_tree : huffman_node → BitStream → Option (Int × BitStream)
  | .mk code lhs rhs, s =>
    if code ≠ -1 then some (code, s)
    else
      let r := next_bit s
      if r.1 = 1 then
        match rhs with
        | none => none
        | some child => walk_tree child r.2
      else
        match lhs with
        | none => none
        | some child => walk_tree child r.2

/-- The distance-symbol read of main.c lines 340-354: with a NULL distance
tree (fixed blocks) the symbol is 5 bits via `read_bits`, i.e. assembled
MSB-first; with a distance tree (dynamic blocks) it is decoded by walking
the tree. -/
def read_dist_symbol : Option huffman_node → BitStream → Option (Nat × BitStream)
  | none, s =>
    let r := read_bits s 5
    some (r.1, r.2)
  | some root, s =>
    match walk_tree root s with
    | none => none
    | some (c, s2) => some (c.toNat, s2)

/-- Result of one `inflate_huffman_codes` call: `ok` is the C `return true`
with the bytes written to `fd`; `premature_eof` is the C `return false`
(nothing written, lines 297-300); `crash` marks undefined behaviour (NULL
dereference, failed assert); `fuel_out` means the fuel ran out. -/
inductive BlockResult where
  | ok (out : List (Option Nat)) (s : BitStream)
  | premature_eof (s : BitStream)
  | crash
  | fuel_out

/-- The decode loop of `inflate_huffman_codes` (main.c lines 296-370), one
fuel unit per consumed bit.  Each call starts from a fresh empty buffer —
the C local `unsigned char buf[MAX_DISTANCE]` with `byte_count = 0` — so
nothing of an earlier block is visible.  No validation of distances or
lengths happens anywhere on the back-reference path. -/
def ihc_loop (lit : huffman_node) (droot : Option huffman_node) :
    Nat → huffman_node → BitStream → List (Option Nat) → BlockResult
  | 0, _, _, _ => .fuel_out
  | fuel+1, node, s, buf =>
    if s.eof then .premature_eof s
    else
      let r := next_bit s
      match (if r.1 = 1 then node.rhs else node.lhs) with
      | none => .crash
      | some n =>
        if n.code = -1 then ihc_loop lit droot fuel n r.2 buf
        else if n.code < 256 then
          ihc_loop lit droot fuel lit r.2 (buf ++ [some n.code.toNat])
        else if n.code = 256 then .ok buf r.2
        else if 286 ≤ n.code then .crash
        else
          let rl := decode_length r.2 n.code.toNat
          match read_dist_symbol droot rl.2 with
          | none => .crash
          | some (d, s2) =>
            let rd := decode_distance s2 d
            ihc_loop lit droot fuel lit rd.2 (emit_backref buf rd.1 rl.1)

/-- Model of `inflate_huffman_codes` (main.c lines 283-377): run the decode
loop from the literal root on a fresh buffer; on success the whole buffer is
written to the sink. -/
def inflate_huffman_codes (bfuel : Nat) (s : BitStream) (lit : huffman_node)
    (droot : Option huffman_node) : BlockResult :=
  ihc_loop lit droot bfuel lit s []

/-! ### Dynamic Huffman trees (main.c: `read_dynamic_huffman_tree`, lines 185-280) -/

def code_length_offsets : List Nat :=
  [16, 17, 18, 0, 8] ++ [7, 9, 6, 10, 5] ++ [11, 4, 12, 3, 13] ++ [2, 14, 1, 15]

/-- The loop of main.c lines 199-200: `hclen + 4` 3-bit reads stored at the
permuted positions; remaining positions keep the memset 0. -/
def read_code_lengths : BitStream → Nat → Nat → (Nat → Nat) → ((Nat → Nat) × BitStream)
  | s, _, 0, cl => (cl, s)
  | s, i, k+1, cl =>
    let r := read_bits_and_invert s 3
    let off := code_length_offsets.getD i 0
    read_code_lengths r.2 (i+1) k (fun j => if j = off then r.1 else cl j)

/-- The alphabet decode loop of main.c lines 216-253, fueled: walk the
code-length tree bit by bit; symbols up to 15 append themselves, 16 repeats
the previous entry (`alphabet[i-1]`; at `i = 0` the C reads before the
array — `none`), 17 and 18 append zero runs.  `none` also models a NULL
child, a switch fall-through (symbol outside 0-18 leaves `repeat_length`
uninitialized), writes past the `hlit + hdist + 258` allocation, and
exhausted fuel. -/
def read_alphabet (clroot : huffman_node) (total : Nat) :
    Nat → huffman_node → BitStream → List Nat → Option (List Nat × BitStream)
  | 0, _, _, _ => none
  | fuel+1, node, s, alpha =>
    if total ≤ alpha.length then some (alpha, s)
    else
      let r := next_bit s
      match (if r.1 = 1 then node.rhs else node.lhs) with
      | none => none
      | some n =>
        if n.code = -1 then read_alphabet clroot total fuel n r.2 alpha
        else if n.code ≤ 15 then
          read_alphabet clroot total fuel clroot r.2 (alpha ++ [n.code.toNat])
        else if n.code = 16 then
          match alpha.getLast? with
          | none => none
          | some prev =>
            let r2 := read_bits_and_invert r.2 2
            if total < alpha.length + (r2.1 + 3) then none
            else read_alphabet clroot total fuel clroot r2.2
              (alpha ++ List.replicate (r2.1 + 3) prev)
          else if n.code = 17 then
            let r2 := read_bits_and_invert r.2 3
            if total < alpha.length + (r2.1 + 3) then none
            else read_alphabet clroot total fuel clroot r2.2
              (alpha ++ List.replicate (r2.1 + 3) 0)
          else if n.code = 18 then
            let r2 := read_bits_and_invert r.2 7
            if total < alpha.length + (r2.1 + 11) then none
            else read_alphabet clroot total fuel clroot r2.2
              (alpha ++ List.replicate (r2.1 + 11) 0)
          else none

/-- The literal/length tree input of main.c lines 257-265: run-encode the
entries `0 .. hlit + 257` INCLUSIVE (one past the `hlit + 257` literal
entries), then pass `j` — one less than the number of ranges — so the last
run is dropped. -/
def literal_tree_ranges (alphabet : List Nat) (hlit : Nat) : List HuffmanRange :=
  (runs (alphabet.take (hlit + 258))).dropLast

/-- The distance tree input of main.c lines 267-276: run-encode the entries
`hlit + 257 .. hlit + hdist + 258`, rebased to start at 0.  The first entry
is `alphabet[hlit + 257]` and the last index is one past the allocation, so
its value is whatever byte follows the array — the `junk` parameter.  The
count passed is again `j`, dropping the final run. -/
def distance_tree_ranges (alphabet : List Nat) (hlit : Nat) (junk : Nat) :
    List HuffmanRange :=
  (runs ((alphabet.drop (hlit + 257)) ++ [junk])).dropLast

/-- Model of `read_dynamic_huffman_tree` (main.c lines 185-280). -/
def read_dynamic_huffman_tree (junk : Nat) (fuel : Nat) (s : BitStream) :
    Option (huffman_node × huffman_node × BitStream) :=
  let rh := read_bits_and_invert s 5
  let rd := read_bits_and_invert rh.2 5
  let rc := read_bits_and_invert rd.2 4
  let rcl := read_code_lengths rc.2 0 (rc.1 + 4) (fun _ => 0)
  let code_lengths := (List.range 19).map rcl.1
  let clroot := build_huffman_tree (runs code_lengths)
  match read_alphabet clroot (rh.1 + rd.1 + 258) fuel clroot rcl.2 [] with
  | none => none
  | some (alphabet, s2) =>
    some (build_huffman_tree (literal_tree_ranges alphabet rh.1),
      build_huffman_tree (distance_tree_ranges alphabet rh.1 junk), s2)

/-! ### Inflate (main.c: `inflate`, lines 380-422) -/

/-- The block loop of `inflate`, one fuel unit per block: read BFINAL then
BTYPE (2 bits LSB-first); BTYPE 0 prints "uncompressed block type not
supported" and returns false, BTYPE 3 is "unsupported block type"; BTYPE 1
decodes with the fixed tree and a NULL distance tree, BTYPE 2 builds dynamic
trees first.  The boolean result of `inflate_huffman_codes` is DISCARDED
(lines 406 and 412 ignore it): a failed block stops neither the loop nor
the final `return true`.  On `premature_eof` the block wrote nothing.
`none` models undefined behaviour or exhausted fuel. -/
def inflate_blocks (junk bfuel : Nat) : Nat → BitStream → List (Option Nat) →
    Option (Bool × List (Option Nat))
  | 0, _, _ => none
  | fuel+1, s, out =>
    let rl := next_bit s
    let rb := read_bits_and_invert rl.2 2
    if rb.1 = 0 then some (false, out)
    else if rb.1 = 1 then
      match inflate_huffman_codes bfuel rb.2 build_fixed_huffman_tree none with
      | .ok o s2 =>
        if rl.1 = 1 then some (true, out ++ o) else inflate_blocks junk bfuel fuel s2 (out ++ o)
      | .premature_eof s2 =>
        if rl.1 = 1 then some (true, out) else inflate_blocks junk bfuel fuel s2 out
      | _ => none
    else if rb.1 = 2 then
      match read_dynamic_huffman_tree junk bfuel rb.2 with
      | none => none
      | some (lroot, droot, s2) =>
        match inflate_huffman_codes bfuel s2 lroot (some droot) with
        | .ok o s3 =>
          if rl.1 = 1 then some (true, out ++ o) else inflate_blocks junk bfuel fuel s3 (out ++ o)
        | .premature_eof s3 =>
          if rl.1 = 1 then some (true, out) else inflate_blocks junk bfuel fuel s3 out
        | _ => none
    else some (false, out)

/-- Model of `inflate` (main.c lines 380-422): prime the bit stream with the
first byte of the compressed input (lines 384-386; an empty input leaves the
C `buf` indeterminate and sets eof) and run the block loop.  The result is
the C return value together with everything written to the sink `fd`. -/
def inflate (junk bfuel fuel : Nat) (input : List Nat) :
    Option (Bool × List (Option Nat)) :=
  match input with
  | [] => inflate_blocks junk bfuel fuel ⟨[], 0, 1, true⟩ []
  | b :: rest => inflate_blocks junk bfuel fuel ⟨rest, b, 1, false⟩ []

/-! ### Spec-side distance table (spec §4.3 step 4, RFC 1951 §3.2.5) -/

def dist_base : List Nat :=
  [5, 7, 9, 13, 17, 25] ++ [33, 49, 65, 97, 129, 193] ++
    [257, 385, 513, 769, 1025, 1537] ++ [2049, 3073, 4097, 6145] ++
    [8193, 12289, 16385, 24577]

def spec_extra_bits (d : Nat) : Nat := if d ≤ 3 then 0 else (d - 2) / 2

/-- The spec's distance for symbol `d` with extra-bit value `v`:
`d + 1` for `d ≤ 3`, else `base[d] + v`. -/
def spec_distance (d v : Nat) : Nat := if d ≤ 3 then d + 1 else dist_base.getD (d - 4) 0 + v

/-! ### Copy-loop lemmas -/

theorem copy_loop_length : ∀ (L : Nat) (buf : List (Option Nat)) (st : Int),
    (copy_loop buf st L).length = buf.length + L := by
  intro L
  induction L with
  | zero => intro buf st; simp [copy_loop]
  | succ L ih =>
    intro buf st
    rw [copy_loop, ih]
    simp
    omega

theorem copy_loop_preserves : ∀ (L : Nat) (buf : List (Option Nat)) (st : Int) (j : Int),
    j < (buf.length : Int) →
    bufGet (copy_loop buf st L) j = bufGet buf j := by
  intro L
  induction L with
  | zero => intro buf st j _; rfl
  | succ L ih =>
    intro buf st j hj
    rw [copy_loop, ih _ _ j (by simp; omega)]
    unfold bufGet
    by_cases hneg : j < 0
    · rw [if_pos hneg, if_pos hneg]
    · rw [if_neg hneg, if_neg hneg]
      have hlt : j.toNat < buf.length := by omega
      rw [List.getD_append _ _ _ _ hlt]

theorem copy_loop_split : ∀ (a : Nat) (b : Nat) (buf : List (Option Nat)) (st : Int),
    copy_loop buf st (a + b) = copy_loop (copy_loop buf st a) (st + (a : Int)) b := by
  intro a
  induction a with
  | zero => intro b buf st; simp [copy_loop]
  | succ a ih =>
    intro b buf st
    have h1 : (a + 1) + b = (a + b) + 1 := by ring
    rw [h1]
    show copy_loop (buf ++ [bufGet buf st]) (st + 1) (a + b)
      = copy_loop (copy_loop (buf ++ [bufGet buf st]) (st + 1) a) (st + (a + 1 : Nat)) b
    rw [ih b (buf ++ [bufGet buf st]) (st + 1)]
    congr 1
    push_cast
    ring

theorem copy_loop_step (buf : List (Option Nat)) (st : Int) :
    copy_loop buf st 1 = buf ++ [bufGet buf st] := rfl

theorem copy_loop_write : ∀ (L i : Nat) (buf : List (Option Nat)) (st : Int), i < L →
    bufGet (copy_loop buf st L) ((buf.length : Int) + i)
      = bufGet (copy_loop buf st i) (st + i) := by
  intro L i buf st hiL
  have hsplit : L = (i + 1) + (L - i - 1) := by omega
  rw [hsplit, copy_loop_split (i+1) (L - i - 1) buf st]
  have hstep : copy_loop buf st (i + 1) = copy_loop buf st i ++ [bufGet (copy_loop buf st i) (st + i)] := by
    have : i + 1 = i + 1 := rfl
    rw [copy_loop_split i 1 buf st, copy_loop_step]
  rw [hstep]
  have hlen : ((copy_loop buf st i).length : Int) = (buf.length : Int) + i := by
    rw [copy_loop_length]
    push_cast
    ring
  rw [copy_loop_preserves _ _ _ _ (by simp [hlen])]
  unfold bufGet
  rw [if_neg (by omega : ¬ ((buf.length : Int) + i < 0))]
  have htn : ((buf.length : Int) + i).toNat = (copy_loop buf st i).length := by
    rw [copy_loop_length]
    omega
  rw [htn, List.getD_append_right _ _ _ _ (le_refl _), Nat.sub_self]
  rfl

theorem copy_loop_dist_one : ∀ (L : Nat) (buf : List (Option Nat)),
    copy_loop buf ((buf.length : Int) - 1) L
      = buf ++ List.replicate L (bufGet buf ((buf.length : Int) - 1)) := by
  intro L
  induction L with
  | zero => intro buf; simp [copy_loop]
  | succ L ih =>
    intro buf
    rw [copy_loop]
    generalize hX : bufGet buf ((buf.length : Int) - 1) = x
    have harg : (buf.length : Int) - 1 + 1 = ((buf ++ [x]).length : Int) - 1 := by
      simp
    rw [harg, ih]
    have hx : bufGet (buf ++ [x]) (((buf ++ [x]).length : Int) - 1) = x := by
      unfold bufGet
      rw [if_neg (by simp)]
      have htn : (((buf ++ [x]).length : Int) - 1).toNat = buf.length := by
        simp
      rw [htn, List.getD_append_right _ _ _ _ (le_refl _), Nat.sub_self]
      rfl
    rw [hx, List.append_assoc]
    congr 1

/-- C10: for every back-reference with distance `d ≥ 1` and length `L`,
including overlapping ones, the copy loop writes byte-by-byte in increasing
position order, so on the final buffer `output[p+i] = output[p-d+i]` for
every `i < L` (each read having seen the previous writes), and `d = 1`
appends `L` repetitions of the preceding byte. -/
theorem copy_loop_overlap (buf : List (Option Nat)) (d L : Nat) (hd : 1 ≤ d) :
    (∀ i : Nat, i < L →
      bufGet (copy_loop buf ((buf.length : Int) - d) L) ((buf.length : Int) + i)
        = bufGet (copy_loop buf ((buf.length : Int) - d) L) ((buf.length : Int) - d + i)) ∧
    (d = 1 → copy_loop buf ((buf.length : Int) - d) L
        = buf ++ List.replicate L (bufGet buf ((buf.length : Int) - d))) := by
  constructor
  · intro i hi
    rw [copy_loop_write L i buf _ hi]
    have hsplit : L = i + (L - i) := by omega
    conv_rhs => rw [hsplit, copy_loop_split i (L - i) buf ((buf.length : Int) - d)]
    rw [copy_loop_preserves (L - i) _ _ _ (by
      rw [copy_loop_length]
      push_cast
      omega)]
  · intro hd1
    subst hd1
    simpa using copy_loop_dist_one L buf

/-- C10 witness: buffer `[7]`, distance 1, length 3 — three repetitions of
the preceding byte. -/
theorem copy_loop_overlap_witness :
    copy_loop [some 7] ((([some 7] : List (Option Nat)).length : Int) - (1:Nat)) 3
      = [some 7] ++ List.replicate 3 (bufGet [some 7]
          ((([some 7] : List (Option Nat)).length : Int) - (1:Nat))) :=
  (copy_loop_overlap [some 7] 1 3 (le_refl 1)).2 rfl

theorem addend_base (k : Nat) (hk : k < 26) :
    extra_dist_addend.getD k 0 + 1 = dist_base.getD k 0 := by
  interval_cases k <;> rfl

theorem decode_distance_gt (s : BitStream) (d : Nat) (h : d > 3) :
    decode_distance s d
      = ((read_bits_and_invert s ((d - 2) / 2)).1 + extra_dist_addend.getD (d - 4) 0,
         (read_bits_and_invert s ((d - 2) / 2)).2) := by
  unfold decode_distance
  rw [if_pos h]

theorem decode_distance_le (s : BitStream) (d : Nat) (h : ¬ d > 3) :
    decode_distance s d = (d, s) := by
  unfold decode_distance
  rw [if_neg h]

/-- C9: for every decoded distance symbol `d ≤ 29`, the code reads
`(d-2)/2` extra bits LSB-first when `d ≥ 4` (none otherwise) and the copy
starts exactly `spec_distance d v` bytes before the current output position,
where `spec_distance` is the claim's table: `d+1` for `d ≤ 3`, else
`base[d] + v` with bases {5,7,9,...,24577}.  (Internally the code keeps
`distance - 1`: `extra_dist_addend[d-4] = base[d] - 1` and the copy source
is `ptr - dist - 1`.) -/
theorem decode_distance_matches_spec (d : Nat) (hd : d ≤ 29) (s : BitStream)
    (buf : List (Option Nat)) (L : Nat) :
    (decode_distance s d).1 + 1
        = spec_distance d (read_bits_and_invert s (spec_extra_bits d)).1 ∧
    (decode_distance s d).2 = (read_bits_and_invert s (spec_extra_bits d)).2 ∧
    emit_backref buf (decode_distance s d).1 L
      = copy_loop buf ((buf.length : Int)
          - (spec_distance d (read_bits_and_invert s (spec_extra_bits d)).1 : Int)) L := by
  by_cases h3 : d ≤ 3
  · have hdd : ¬ d > 3 := by omega
    have hextra : spec_extra_bits d = 0 := by simp [spec_extra_bits, h3]
    have hrb : read_bits_and_invert s 0 = (0, s) := rfl
    have hspec : spec_distance d 0 = d + 1 := by rw [spec_distance, if_pos h3]
    rw [hextra, hrb, decode_distance_le s d hdd]
    refine ⟨hspec.symm, rfl, ?_⟩
    rw [hspec]
    unfold emit_backref
    congr 1
    push_cast
    ring
  · have hdd : d > 3 := by omega
    have hextra : spec_extra_bits d = (d - 2) / 2 := by simp [spec_extra_bits, h3]
    have hspec : ∀ v, spec_distance d v = dist_base.getD (d - 4) 0 + v := by
      intro v
      rw [spec_distance, if_neg h3]
    have hb := addend_base (d - 4) (by omega)
    rw [hextra, decode_distance_gt s d hdd, hspec]
    refine ⟨by omega, rfl, ?_⟩
    unfold emit_backref
    congr 1
    push_cast
    omega

/-- C9 witness: symbol 7 (base 13) with whatever two extra bits the stream
supplies. -/
theorem decode_distance_matches_spec_witness :
    (decode_distance ⟨[], 5, 1, false⟩ 7).1 + 1
        = spec_distance 7 (read_bits_and_invert ⟨[], 5, 1, false⟩ (spec_extra_bits 7)).1 :=
  (decode_distance_matches_spec 7 (by norm_num) ⟨[], 5, 1, false⟩ [] 0).1

/-- C8: in a fixed block (`distances_root == NULL`) the distance symbol is
`read_bits(stream, 5)`, whose value over the five consumed bits
`b0, …, b4` is `Σ b_i · 2^(4-i)`: the first bit read is the most
significant bit of the 5-bit symbol. -/
theorem read_dist_symbol_fixed_msb_first (s : BitStream) :
    read_dist_symbol none s = some (read_bits s 5) ∧
    (read_bits s 5).1 = ∑ i ∈ Finset.range 5, (next_bits s 5).1.getD i 0 * 2^(4 - i) := by
  refine ⟨rfl, ?_⟩
  rw [read_bits_spec, msb_value_sum, next_bits_length]

def BlockResult.is_premature : BlockResult → Bool
  | .premature_eof _ => true
  | _ => false

/-- C1 (the code at a failing input): two fixed blocks, the first emitting
the literal `A` (byte 65), the second a length-3 distance-1 back-reference
followed by end-of-block.  With a persistent window the output would be
`A A A A`; the code starts every block with a fresh empty buffer, so the
second block's back-reference reads before its own buffer and emits three
indeterminate bytes (`none`), never the byte from block one. -/
theorem inflate_window_reset_across_blocks :
    inflate 0 300 5 [114, 4, 12, 8, 0] = some (true, [some 65, none, none, none]) ∧
    inflate 0 300 5 [114, 4, 12, 8, 0] ≠ some (true, [some 65, some 65, some 65, some 65]) := by
  constructor
  · decide
  · decide

/-- C2 (the code at a failing input): a stored block (BFINAL=1, BTYPE=00,
LEN=3, NLEN=0xFFFC, bytes "abc").  The claim requires the decoder to copy
the 3 raw bytes; the code prints "uncompressed block type not supported"
and returns false without reading LEN/NLEN or emitting anything. -/
theorem inflate_rejects_stored_block :
    inflate 0 300 5 [1, 3, 0, 252, 255, 97, 98, 99] = some (false, []) := by decide

/-- C3 (the code at a failing input): a single fixed BFINAL block containing
the literal `A` whose end-of-block code is cut off by end of input.
`inflate_huffman_codes` does detect the condition (`premature_eof`, the C
`return false` after "Premature end of file"), but `inflate` discards that
boolean and returns overall success. -/
theorem inflate_swallows_premature_eof :
    (inflate_huffman_codes 300 ⟨[4], 115, 8, false⟩ build_fixed_huffman_tree none).is_premature
        = true ∧
    inflate 0 300 5 [115, 4] = some (true, []) := by
  constructor
  · decide
  · decide

/-- C4 (the code at a failing input): a fixed block whose first symbol is
already a back-reference (length 3, distance 1) at output position 0.
The claim requires `MalformedStream` since `d = 1 > min(32768, 0)`; the
code performs no validation, reads `buf[-1]` and two copies of it, and
returns success with three indeterminate bytes. -/
theorem inflate_no_distance_validation :
    inflate 0 300 5 [3, 2, 0] = some (true, [none, none, none]) := by decide

/-- C7 (the code at a failing input): HLIT = HDIST = 0 with combined length
vector `[7, 8 × 256, 8]` (entry 257 — the single distance length — equal to
entry 256).  The claim requires the literal/length tree to be built from
exactly the first 257 entries; the code run-encodes entries 0..257 inclusive
and passes range count `j` (one less than the number of runs), so the
literal tree here is built from `[⟨0,7⟩]` alone — a single symbol, dropping
symbols 1..256 including end-of-block.  The distance tree is built from
entries 257..258 where index 258 is past the allocation: its junk value
changes the resulting ranges. -/
theorem dynamic_split_drops_symbols :
    literal_tree_ranges ([7] ++ List.replicate 256 8 ++ [8]) 0 = [⟨0, 7⟩] ∧
    (assign_codes [⟨0, 7⟩]).length = 1 ∧
    distance_tree_ranges ([7] ++ List.replicate 256 8 ++ [8]) 0 8 = [] ∧
    distance_tree_ranges ([7] ++ List.replicate 256 8 ++ [8]) 0 9 = [⟨0, 8⟩] := by decide

end LZip
